import Mathlib

/-
Verification of the `srv` request-routing composition layer
(`src/middleware.go`) against its natural-language specification.

The embedding has two levels:

* A pure value model (`srv.Route`, `srv.Group`, `srv.Router`, `srv.Handle`,
  `srv.Redirect`, ...) that mirrors the Go code read as operations on
  values: handlers are an abstract type `α`, middleware (`Mware`) are
  functions `α → α`, the `*http.ServeMux` collaborator is the list of
  `(pattern, handler)` pairs registered with it, and `log.Fatal`/`os.Exit`
  are `Except.error`.

* A store model (`srv.Store`, `srv.Sl`, `srv.GroupM`, `srv.RouterM`, ...)
  that additionally models Go slice semantics: a slice is a (backing-array
  id, length) pair into a store of arrays, `append` writes in place when
  capacity allows and otherwise allocates a fresh array, and the
  `g.routes[j].fn = ...` loops of `Group.compose`, `Routes.Wrap` and
  `Router.Compose` are in-place writes.  This level decides the claims
  about value semantics / absence of caller-observable mutation.

Symbolic handlers (`srv.H`) and trace handlers (lists of pre/post events)
instantiate `α` for concrete evaluations.
-/

namespace srv

/-- Middleware: `type Mware func(http.HandlerFunc) http.HandlerFunc`.
Handlers are kept abstract as `α`. -/
abbrev Mware (α : Type) := α → α

/-- `Route` from the source: a pattern and a handler (`fn`). -/
structure Route (α : Type) where
  pattern : String
  fn : α
deriving DecidableEq, Repr

/-- `applyAll f ws` is the repeated-wrap loop
`for _, fn := range mw { f = fn(f) }` shared by `Handle`, `Route.Wrap`,
`Group.compose`, `Routes.Wrap` and `Router.Compose`: middleware applied in
order, so the last element of `ws` ends up outermost. -/
def applyAll (f : α) (ws : List (Mware α)) : α :=
  ws.foldl (fun g m => m g) f

/-- `Route.Wrap` from the source: successively wrap `fn` with each
middleware, in order. -/
def Route.Wrap (r : Route α) (mw : List (Mware α)) : Route α :=
  mw.foldl (fun r m => { r with fn := m r.fn }) r

/-- The handler rewrap applied to one route by `Group.compose` /
`Router.Compose` / `Routes.Wrap`: pattern kept, handler wrapped by `ws`
in order. -/
def wrapW (ws : List (Mware α)) (r : Route α) : Route α :=
  { r with fn := applyAll r.fn ws }

/-- `Routes` from the source, read as a value (the in-place variant lives
in the store model). -/
abbrev Routes (α : Type) := List (Route α)

/-- `Routes.Wrap` from the source, value level: every route's handler is
wrapped with all the given middleware, in order. -/
def Routes.Wrap (rs : Routes α) (mw : List (Mware α)) : Routes α :=
  rs.map (fun r => r.Wrap mw)

/-- The handler-like argument of `Handle` (`h any`): the three recognized
variants of the Go type switch — an `http.Handler`, an `http.HandlerFunc`,
a plain `func(http.ResponseWriter, *http.Request)` — or any other value,
carrying the string `%T` would print for it. -/
inductive HIn (α : Type) where
  | handler (h : α)
  | handlerFunc (f : α)
  | plainFunc (f : α)
  | other (ty : String)
deriving Repr

/-- The handler a recognized `Handle` argument is adapted to (`none` for
the unrecognized default branch).  The `http.Handler` branch delegates to
`t.ServeHTTP`, which is the same handler behaviour. -/
def HIn.adapt : HIn α → Option α
  | .handler h => some h
  | .handlerFunc f => some f
  | .plainFunc f => some f
  | .other _ => none

/-- `Handle` from the source: adapt the input (the default branch of the
type switch is `log.Output` + `os.Exit(1)`, modelled as `Except.error`
with the exact message), then wrap with the middleware in order. -/
def Handle (pattern : String) (h : HIn α) (mw : List (Mware α)) :
    Except String (Route α) :=
  match h with
  | .handler t => .ok (Route.Wrap ⟨pattern, t⟩ mw)
  | .handlerFunc t => .ok (Route.Wrap ⟨pattern, t⟩ mw)
  | .plainFunc t => .ok (Route.Wrap ⟨pattern, t⟩ mw)
  | .other ty =>
      .error ("require either http.Handler or http.HandlerFunc got: " ++ ty)

/-- `Group` from the source: sub-groups, directly-held routes, and the
group's middleware (`wrap`). -/
inductive Group (α : Type) where
  | mk (groups : List (Group α)) (routes : List (Route α))
      (wrap : List (Mware α))

/-- Field accessor mirroring `g.groups`. -/
def Group.groups : Group α → List (Group α)
  | .mk gs _ _ => gs

/-- Field accessor mirroring `g.routes`. -/
def Group.routes : Group α → List (Route α)
  | .mk _ rs _ => rs

/-- Field accessor mirroring `g.wrap`. -/
def Group.wrap : Group α → List (Mware α)
  | .mk _ _ ws => ws

/-- `Group.Wrap` from the source: append middleware to the group's own
list. -/
def Group.Wrap (g : Group α) (mw : List (Mware α)) : Group α :=
  .mk g.groups g.routes (g.wrap ++ mw)

mutual

/-- `Group.compose` from the source, value level: append every sub-group's
composition after the direct routes, then wrap every route in the combined
list with the group's middleware. -/
def Group.compose : Group α → List (Route α)
  | .mk gs rs ws => (rs ++ Group.composeAll gs).map (wrapW ws)

/-- The `for _, group := range g.groups` loop of `Group.compose`:
sub-groups composed in declaration order, results concatenated. -/
def Group.composeAll : List (Group α) → List (Route α)
  | [] => []
  | g :: gs => g.compose ++ Group.composeAll gs

end

/-- The variadic `any` argument of `Group.Add` / `Router.Add`: the
recognized variants, plus `http.HandlerFunc` values, strings, and any
other value (carrying the strings `%T` and `%v` would print for it). -/
inductive AIn (α : Type) where
  | group (g : Group α)
  | groups (gs : List (Group α))
  | route (r : Route α)
  | routes (rs : List (Route α))
  | hfunc (f : α)
  | str (s : String)
  | other (ty val : String)

/-- `true` exactly on the variants `Group.Add` and `Router.Add` accept:
`Group`, `[]Group`, `Route`, `[]Route`. -/
def AIn.recognized : AIn α → Bool
  | .group _ => true
  | .groups _ => true
  | .route _ => true
  | .routes _ => true
  | _ => false

/-- `Group.Add` from the source: fold over the variadic arguments,
appending groups/routes; `log.Fatal` (modelled as `Except.error`, with the
exact message) on a string, and `log.Fatalf("unknown type: %T", t)` on
anything else — an `http.HandlerFunc` hits that default branch with
`%T = http.HandlerFunc`. -/
def Group.Add (g : Group α) : List (AIn α) → Except String (Group α)
  | [] => .ok g
  | v :: rest =>
      match v with
      | .groups ts => Group.Add (.mk (g.groups ++ ts) g.routes g.wrap) rest
      | .group t => Group.Add (.mk (g.groups ++ [t]) g.routes g.wrap) rest
      | .routes ts => Group.Add (.mk g.groups (g.routes ++ ts) g.wrap) rest
      | .route t => Group.Add (.mk g.groups (g.routes ++ [t]) g.wrap) rest
      | .str _ => .error "use srv.Handle() to add an endpoint"
      | .hfunc _ => .error "unknown type: http.HandlerFunc"
      | .other ty _ => .error ("unknown type: " ++ ty)

/-- `Router` from the source, value level: the `*http.ServeMux`
collaborator is modelled as the list of `(pattern, handler)` pairs
registered with it, in registration order. -/
structure Router (α : Type) where
  mux : List (String × α)
  groups : List (Group α)
  routes : List (Route α)
  wrap : List (Mware α)

/-- `NewRouter` from the source: empty router around a fresh mux. -/
def NewRouter (α : Type) : Router α := ⟨[], [], [], []⟩

/-- `Router.Wrap` from the source. -/
def Router.Wrap (r : Router α) (mw : List (Mware α)) : Router α :=
  { r with wrap := r.wrap ++ mw }

/-- `Router.Add` from the source: like `Group.Add`, but with a dedicated
fatal branch for `http.HandlerFunc` and the message
`"unknown type: %T %v"` in the default branch. -/
def Router.Add (r : Router α) : List (AIn α) → Except String (Router α)
  | [] => .ok r
  | v :: rest =>
      match v with
      | .groups ts => Router.Add { r with groups := r.groups ++ ts } rest
      | .group t => Router.Add { r with groups := r.groups ++ [t] } rest
      | .routes ts => Router.Add { r with routes := r.routes ++ ts } rest
      | .route t => Router.Add { r with routes := r.routes ++ [t] } rest
      | .hfunc _ => .error "use srv.Handle() to add endpoint"
      | .str _ => .error "use srv.Handle() to add endpoint"
      | .other ty val => .error ("unknown type: " ++ ty ++ " " ++ val)

/-- `Router.Compose` from the source, value level: merge the extra
arguments via `Add`, append every group's composition after the direct
routes, then for each route in order wrap its handler with the router
middleware and register the pair with the mux (`mux.HandleFunc` modelled
as appending to the registration list — the mux itself decides duplicate
handling, this layer registers unconditionally). -/
def Router.Compose (r : Router α) (v : List (AIn α)) :
    Except String (List (String × α)) :=
  (Router.Add r v).map (fun r1 =>
    let rts := r1.routes ++ Group.composeAll r1.groups
    rts.foldl (fun mux rt => mux ++ [(rt.pattern, applyAll rt.fn r1.wrap)])
      r1.mux)

/-- The flat registration list `Router.Compose` produces for a router that
needs no further `Add` merging. -/
def composePairs (r : Router α) : List (String × α) :=
  (r.routes ++ Group.composeAll r.groups).map
    (fun rt => (rt.pattern, applyAll rt.fn r.wrap))

/-- The request data `Redirect` reads: `req.Host`, `req.URL.Path`,
`req.URL.RawQuery`. -/
structure Request where
  host : String
  path : String
  rawQuery : String

/-- What the `Redirect` handler replies: a status code and the redirect
target. -/
structure Response where
  code : Nat
  location : String
deriving DecidableEq

/-- `Redirect` from the source: rewrite a `localhost`+HTTP host to
`localhost`+HTTPS, rebuild the target as `https://host+path`, append
`?`+rawQuery only when the raw query is non-empty, and reply with
`http.StatusTemporaryRedirect` (307). -/
def Redirect (HTTP HTTPS : String) (req : Request) : Response :=
  let host := if req.host = "localhost" ++ HTTP
    then "localhost" ++ HTTPS else req.host
  let target := "https://" ++ host ++ req.path
  let target := if 0 < req.rawQuery.length
    then target ++ "?" ++ req.rawQuery else target
  ⟨307, target⟩

/-- Symbolic handlers: a named base handler, or a named middleware layer
applied to a handler.  Instantiating `α` with `H` makes wrap structure
concrete and decidable. -/
inductive H where
  | base (n : Nat)
  | app (m : Nat) (h : H)
deriving DecidableEq, Repr

/-- The free middleware with name `m` on symbolic handlers. -/
def mwH (m : Nat) : Mware H := fun h => .app m h

/-- Trace handlers: a handler is the list of events its invocation emits,
`(i, false)` an entry (pre) event and `(i, true)` an exit (post) event. -/
abbrev Trace := List (Nat × Bool)

/-- The instrumented middleware with name `i`: runs its pre-logic, then
the wrapped handler, then its post-logic. -/
def mwTrace (i : Nat) : Mware Trace := fun t => (i, false) :: t ++ [(i, true)]

/-! ### Store model: Go slice semantics

The value model above reads every operation as if slices were immutable
lists.  The source, however, manipulates Go slices, whose elements live in
shared backing arrays: the element-assignment loops of `Group.compose`,
`Routes.Wrap` and `Router.Compose` write through the slice into the array
the caller's slice also points at.  The store model makes that explicit. -/

/-- A Go slice header: backing-array id and length.  Every slice in the
source starts at offset 0 of its array (all are produced by `append`
growth from nil or literals), so no offset field is needed; a slice's
capacity is its backing array's physical length. -/
structure Sl where
  arr : Nat
  len : Nat
deriving DecidableEq, Repr

/-- The store of `[]Route` backing arrays, indexed by array id.  Cells of
an array beyond a slice's length are that slice's spare capacity. -/
abbrev Store (α : Type) := List (List (Route α))

/-- The backing array with id `i` (empty when `i` is unallocated). -/
def Store.getA (st : Store α) (i : Nat) : List (Route α) := st.getD i []

/-- The list of routes a slice denotes: the first `len` cells of its
backing array. -/
def Sl.read (s : Sl) (st : Store α) : List (Route α) :=
  (st.getA s.arr).take s.len

/-- A slice's capacity. -/
def Sl.cap (s : Sl) (st : Store α) : Nat := (st.getA s.arr).length

/-- Well-formedness of a slice header: allocated array, length within
capacity. -/
def Sl.Valid (s : Sl) (st : Store α) : Prop :=
  s.arr < st.length ∧ s.len ≤ s.cap st

instance (s : Sl) (st : Store α) : Decidable (s.Valid st) := by
  unfold Sl.Valid
  infer_instance

/-- Read cell `j` of array `i`. -/
def Store.getCell [Inhabited α] (st : Store α) (i j : Nat) : Route α :=
  (st.getA i).getD j ⟨"", default⟩

/-- Write cell `j` of array `i` in place. -/
def Store.setCell (st : Store α) (i j : Nat) (r : Route α) : Store α :=
  st.set i ((st.getA i).set j r)

/-- The inner middleware loop
`for i := range mw { a[j].fn = mw[i](a[j].fn) }` at one cell:
read-modify-write once per middleware, in order. -/
def Store.wrapCell [Inhabited α] (st : Store α) (i j : Nat)
    (ws : List (Mware α)) : Store α :=
  ws.foldl (fun st m =>
    st.setCell i j ⟨(st.getCell i j).pattern, m (st.getCell i j).fn⟩) st

/-- The outer loop `for j := range routes` over the first `n` cells of
array `i`: wraps cells `0 .. n-1` in place, in order. -/
def Store.wrapCells [Inhabited α] (st : Store α) (i : Nat)
    (ws : List (Mware α)) : Nat → Store α
  | 0 => st
  | n + 1 => (st.wrapCells i ws n).wrapCell i n ws

/-- Go's `append(s, xs...)`: write into spare capacity in place when the
result fits, otherwise allocate a fresh array at the next free id (copy
the live prefix, append, grow capacity by doubling as Go's runtime does
for small slices, zero the spare cells). -/
def Sl.append [Inhabited α] (s : Sl) (xs : List (Route α)) (st : Store α) :
    Sl × Store α :=
  if s.len + xs.length ≤ s.cap st then
    (⟨s.arr, s.len + xs.length⟩,
     st.set s.arr
       ((st.getA s.arr).take s.len ++ xs
         ++ (st.getA s.arr).drop (s.len + xs.length)))
  else
    (⟨st.length, s.len + xs.length⟩,
     st ++ [(st.getA s.arr).take s.len ++ xs
       ++ List.replicate (max (s.len + xs.length) (2 * s.cap st)
            - (s.len + xs.length)) ⟨"", default⟩])

/-- `Routes.Wrap` from the source, store level: the receiver slice is
returned as-is while each of its cells is rewritten in place in the
shared backing array. -/
def RoutesWrapM [Inhabited α] (s : Sl) (mw : List (Mware α))
    (st : Store α) : Sl × Store α :=
  (s, st.wrapCells s.arr mw s.len)

/-- `Group` from the source, store level: the `routes` field is a slice
header into the store; `compose` only reads the `groups` and `wrap`
fields and never writes through them, so they stay values. -/
inductive GroupM (α : Type) where
  | mk (groups : List (GroupM α)) (routes : Sl) (wrap : List (Mware α))

mutual

/-- `Group.compose` from the source, store level: append each sub-group's
composition to the receiver's routes slice (in place when capacity
allows), wrap every cell of the resulting slice in place with the group's
middleware, and return the slice's contents. -/
def GroupM.compose [Inhabited α] :
    GroupM α → Store α → List (Route α) × Store α
  | .mk gs rs ws, st =>
      let p := GroupM.composeInto gs rs st
      let st2 := p.2.wrapCells p.1.arr ws p.1.len
      (p.1.read st2, st2)

/-- The loop `for _, group := range g.groups
{ g.routes = append(g.routes, group.compose()...) }`. -/
def GroupM.composeInto [Inhabited α] :
    List (GroupM α) → Sl → Store α → Sl × Store α
  | [], s, st => (s, st)
  | g :: gs, s, st =>
      let q := g.compose st
      let p := s.append q.1 q.2
      GroupM.composeInto gs p.1 p.2

end

/-- `Router` from the source, store level. -/
structure RouterM (α : Type) where
  groups : List (GroupM α)
  routes : Sl
  wrap : List (Mware α)

/-- The registration loop of `Router.Compose` over the first `n` cells of
array `i`: for each cell in order, wrap it in place with the router
middleware, then register `(pattern, fn)` with the mux (modelled as the
emitted registration list, in order, duplicates included). -/
def Store.registerCells [Inhabited α] (st : Store α) (i : Nat)
    (ws : List (Mware α)) : Nat → List (String × α) × Store α
  | 0 => ([], st)
  | n + 1 =>
      let p := st.registerCells i ws n
      let st2 := p.2.wrapCell i n ws
      (p.1 ++ [((st2.getCell i n).pattern, (st2.getCell i n).fn)], st2)

/-- `Router.Compose` from the source (no extra variadic arguments), store
level: flatten every group into the router's routes slice, then wrap and
register each resulting route. -/
def RouterM.Compose [Inhabited α] (r : RouterM α) (st : Store α) :
    List (String × α) × Store α :=
  let p := GroupM.composeInto r.groups r.routes st
  p.2.registerCells p.1.arr r.wrap p.1.len

mutual

/-- The value a store-level group denotes. -/
def GroupM.read : GroupM α → Store α → Group α
  | .mk gs rs ws, st => .mk (GroupM.readAll gs st) (rs.read st) ws

/-- The values a list of store-level groups denote. -/
def GroupM.readAll : List (GroupM α) → Store α → List (Group α)
  | [], _ => []
  | g :: gs, st => g.read st :: GroupM.readAll gs st

end

/-- The value a store-level router denotes (with its fresh mux). -/
def RouterM.read (r : RouterM α) (st : Store α) : Router α :=
  ⟨[], GroupM.readAll r.groups st, r.routes.read st, r.wrap⟩

mutual

/-- Every slice header reachable in a store-level group. -/
def GroupM.slices : GroupM α → List Sl
  | .mk gs rs _ => rs :: GroupM.slicesAll gs

/-- Every slice header reachable in a list of store-level groups. -/
def GroupM.slicesAll : List (GroupM α) → List Sl
  | [] => []
  | g :: gs => g.slices ++ GroupM.slicesAll gs

end

/-- Every slice header reachable in a store-level router. -/
def RouterM.slices (r : RouterM α) : List Sl :=
  r.routes :: GroupM.slicesAll r.groups

/-- The backing-array ids of a list of slices. -/
def arrsOf (l : List Sl) : List Nat := l.map Sl.arr

/-- All the listed slices are well-formed in the store. -/
def ValidAll (l : List Sl) (st : Store α) : Prop := ∀ s ∈ l, s.Valid st

instance : Inhabited H := ⟨H.base 0⟩

/-! ### Basic lemmas about the wrap loops -/

theorem Route.Wrap_eq (r : Route α) (mw : List (Mware α)) :
    r.Wrap mw = ⟨r.pattern, applyAll r.fn mw⟩ := by
  induction mw generalizing r with
  | nil => rfl
  | cons m mw ih => simpa [Route.Wrap, applyAll] using ih { r with fn := m r.fn }

theorem applyAll_nil (f : α) : applyAll f [] = f := rfl

theorem applyAll_append (f : α) (ws1 ws2 : List (Mware α)) :
    applyAll f (ws1 ++ ws2) = applyAll (applyAll f ws1) ws2 := by
  simp [applyAll]

theorem applyAll_concat (f : α) (ws : List (Mware α)) (m : Mware α) :
    applyAll f (ws ++ [m]) = m (applyAll f ws) := by
  simp [applyAll]

/-- Execution order of the composed trace handler: the pre-logic of the
middleware applied last runs first, then the earlier ones, then the base
handler, then the post-logic in reverse order. -/
theorem applyAll_trace (tr : Trace) (ids : List Nat) :
    applyAll tr (ids.map mwTrace)
      = (ids.reverse.map (fun i => (i, false))) ++ tr
        ++ ids.map (fun i => (i, true)) := by
  induction ids generalizing tr with
  | nil => simp [applyAll]
  | cons i ids ih =>
      simp only [List.map_cons, applyAll, List.foldl_cons, mwTrace,
        List.reverse_cons, List.map_append, List.map_cons, List.map_nil]
      have := ih ((i, false) :: tr ++ [(i, true)])
      simp only [applyAll] at this
      rw [this]
      simp

theorem Group.composeAll_eq_join (gs : List (Group α)) :
    Group.composeAll gs = (gs.map Group.compose).flatten := by
  induction gs with
  | nil => simp [Group.composeAll]
  | cons g gs ih => simp [Group.composeAll, ih]

theorem applyAll_cons (f : α) (m : Mware α) (ws : List (Mware α)) :
    applyAll f (m :: ws) = applyAll (m f) ws := rfl

/-! ### Store lemmas: pointwise behaviour of the in-place loops -/

theorem Store.getA_eq (st : Store α) (i : Nat) :
    st.getA i = (st[i]?).getD [] := List.getD_eq_getElem?_getD st i []

theorem Store.getA_of_ge (st : Store α) (i : Nat) (h : st.length ≤ i) :
    st.getA i = [] := by
  simp [Store.getA_eq, List.getElem?_eq_none h]

theorem Store.getA_set (st : Store α) (i k : Nat) (x : List (Route α)) :
    Store.getA (st.set i x) k
      = if i = k ∧ i < st.length then x else st.getA k := by
  simp only [Store.getA_eq, List.getElem?_set]
  by_cases h1 : i = k
  · subst h1
    by_cases h2 : i < st.length
    · simp [h2]
    · simp [h2, List.getElem?_eq_none (le_of_not_lt h2)]
  · simp [h1]

theorem Store.getA_append_lt (st ext : Store α) (i : Nat)
    (h : i < st.length) : Store.getA (st ++ ext) i = st.getA i := by
  simp [Store.getA_eq, List.getElem?_append, h]

theorem Store.getA_append_self (st : Store α) (a : List (Route α)) :
    Store.getA (st ++ [a]) st.length = a := by
  simp [Store.getA_eq, List.getElem?_concat_length]

theorem Store.length_setCell (st : Store α) (i j : Nat) (r : Route α) :
    (st.setCell i j r).length = st.length := by
  simp [Store.setCell]

theorem Store.getA_setCell_self (st : Store α) (i j : Nat) (r : Route α) :
    (st.setCell i j r).getA i = (st.getA i).set j r := by
  rw [Store.setCell, Store.getA_set]
  by_cases h : i < st.length
  · simp [h]
  · simp [h, Store.getA_of_ge st i (le_of_not_lt h)]

theorem Store.getA_setCell_ne (st : Store α) {i k : Nat} (j : Nat)
    (r : Route α) (h : i ≠ k) : (st.setCell i j r).getA k = st.getA k := by
  rw [Store.setCell, Store.getA_set]
  simp [h]

theorem Store.getCell_eq [Inhabited α] (st : Store α) (i j : Nat) :
    st.getCell i j = ((st.getA i)[j]?).getD ⟨"", default⟩ :=
  List.getD_eq_getElem?_getD (st.getA i) j ⟨"", default⟩

theorem Store.wrapCell_nil [Inhabited α] (st : Store α) (i j : Nat) :
    st.wrapCell i j [] = st := rfl

theorem Store.wrapCell_cons [Inhabited α] (st : Store α) (i j : Nat)
    (m : Mware α) (ws : List (Mware α)) :
    st.wrapCell i j (m :: ws)
      = (st.setCell i j
          ⟨(st.getCell i j).pattern, m (st.getCell i j).fn⟩).wrapCell i j ws :=
  rfl

theorem Store.length_wrapCell [Inhabited α] (st : Store α) (i j : Nat)
    (ws : List (Mware α)) : (st.wrapCell i j ws).length = st.length := by
  induction ws generalizing st with
  | nil => rfl
  | cons m ws ih =>
      rw [Store.wrapCell_cons, ih, Store.length_setCell]

theorem Store.getA_wrapCell_ne [Inhabited α] (st : Store α) {i k : Nat}
    (j : Nat) (ws : List (Mware α)) (h : i ≠ k) :
    (st.wrapCell i j ws).getA k = st.getA k := by
  induction ws generalizing st with
  | nil => rfl
  | cons m ws ih =>
      rw [Store.wrapCell_cons, ih, Store.getA_setCell_ne _ _ _ h]

theorem Store.getElem?_wrapCell_self [Inhabited α] (st : Store α)
    (i j : Nat) (ws : List (Mware α)) :
    ((st.wrapCell i j ws).getA i)[j]? = ((st.getA i)[j]?).map (wrapW ws) := by
  induction ws generalizing st with
  | nil =>
      rw [Store.wrapCell_nil]
      cases h : (st.getA i)[j]? <;> simp [wrapW, applyAll]
  | cons m ws ih =>
      rw [Store.wrapCell_cons, ih, Store.getA_setCell_self,
        List.getElem?_set]
      by_cases hj : j < (st.getA i).length
      · obtain ⟨c, hc⟩ : ∃ c, (st.getA i)[j]? = some c :=
          ⟨_, List.getElem?_eq_getElem hj⟩
        simp only [if_pos rfl, hj, if_true, hc, Option.map_some',
          Store.getCell_eq, Option.getD_some]
        simp [wrapW, applyAll_cons]
      · simp [hj, List.getElem?_eq_none (le_of_not_lt hj)]

theorem Store.getElem?_wrapCell_ne [Inhabited α] (st : Store α)
    (i : Nat) {j k : Nat} (ws : List (Mware α)) (h : k ≠ j) :
    ((st.wrapCell i j ws).getA i)[k]? = (st.getA i)[k]? := by
  induction ws generalizing st with
  | nil => rfl
  | cons m ws ih =>
      rw [Store.wrapCell_cons, ih, Store.getA_setCell_self,
        List.getElem?_set_ne (Ne.symm h)]

theorem Store.length_wrapCells [Inhabited α] (st : Store α) (i : Nat)
    (ws : List (Mware α)) (n : Nat) :
    (st.wrapCells i ws n).length = st.length := by
  induction n with
  | zero => rfl
  | succ n ih => rw [Store.wrapCells, Store.length_wrapCell, ih]

theorem Store.getA_wrapCells_ne [Inhabited α] (st : Store α) {i k : Nat}
    (ws : List (Mware α)) (n : Nat) (h : i ≠ k) :
    (st.wrapCells i ws n).getA k = st.getA k := by
  induction n with
  | zero => rfl
  | succ n ih => rw [Store.wrapCells, Store.getA_wrapCell_ne _ _ _ h, ih]

theorem Store.getElem?_wrapCells [Inhabited α] (st : Store α) (i : Nat)
    (ws : List (Mware α)) (n k : Nat) :
    ((st.wrapCells i ws n).getA i)[k]?
      = if k < n then ((st.getA i)[k]?).map (wrapW ws)
        else (st.getA i)[k]? := by
  induction n with
  | zero => simp [Store.wrapCells]
  | succ n ih =>
      rw [Store.wrapCells]
      by_cases hk : k = n
      · subst hk
        rw [Store.getElem?_wrapCell_self, ih]
        simp
      · rw [Store.getElem?_wrapCell_ne _ _ _ hk, ih]
        by_cases hlt : k < n
        · have : k < n + 1 := by omega
          simp [hlt, this]
        · have : ¬ k < n + 1 := by omega
          simp [hlt, this]

theorem Store.getA_length_setCell (st : Store α) (i j k : Nat)
    (r : Route α) :
    ((st.setCell i j r).getA k).length = (st.getA k).length := by
  by_cases h : i = k
  · subst h
    rw [Store.getA_setCell_self, List.length_set]
  · rw [Store.getA_setCell_ne _ _ _ h]

theorem Store.getA_length_wrapCell [Inhabited α] (st : Store α)
    (i j k : Nat) (ws : List (Mware α)) :
    ((st.wrapCell i j ws).getA k).length = (st.getA k).length := by
  induction ws generalizing st with
  | nil => rfl
  | cons m ws ih =>
      rw [Store.wrapCell_cons, ih, Store.getA_length_setCell]

theorem Store.getA_length_wrapCells [Inhabited α] (st : Store α)
    (i k : Nat) (ws : List (Mware α)) (n : Nat) :
    ((st.wrapCells i ws n).getA k).length = (st.getA k).length := by
  induction n with
  | zero => rfl
  | succ n ih => rw [Store.wrapCells, Store.getA_length_wrapCell, ih]

/-- Reading a slice through the wrap loop over its own cells: the caller
of the slice observes every handler wrapped. -/
theorem Sl.read_wrapCells [Inhabited α] (s : Sl) (ws : List (Mware α))
    (st : Store α) :
    s.read (st.wrapCells s.arr ws s.len) = (s.read st).map (wrapW ws) := by
  apply List.ext_getElem?
  intro n
  rw [Sl.read, Sl.read, List.getElem?_take, List.getElem?_map,
    List.getElem?_take]
  by_cases hn : n < s.len
  · simp only [hn, if_true, Store.getElem?_wrapCells, hn]
  · simp [hn]

theorem Sl.read_frame (s : Sl) (st st' : Store α)
    (h : st'.getA s.arr = st.getA s.arr) : s.read st' = s.read st := by
  simp [Sl.read, h]

theorem Sl.valid_frame (s : Sl) (st st' : Store α)
    (h : st'.getA s.arr = st.getA s.arr) (hlen : st.length ≤ st'.length)
    (hv : s.Valid st) : s.Valid st' := by
  refine ⟨lt_of_lt_of_le hv.1 hlen, ?_⟩
  rw [Sl.cap, h]
  exact hv.2

theorem ValidAll_frame (l : List Sl) (st st' : Store α)
    (hlen : st.length ≤ st'.length)
    (h : ∀ s ∈ l, st'.getA s.arr = st.getA s.arr)
    (hv : ValidAll l st) : ValidAll l st' :=
  fun s hs => Sl.valid_frame s st st' (h s hs) hlen (hv s hs)

/-- Validity is stable under the wrap loops (they only overwrite cells). -/
theorem Sl.valid_wrapCells [Inhabited α] (s : Sl) (st : Store α)
    (i n : Nat) (ws : List (Mware α)) (hv : s.Valid st) :
    s.Valid (st.wrapCells i ws n) := by
  refine ⟨?_, ?_⟩
  · rw [Store.length_wrapCells]
    exact hv.1
  · rw [Sl.cap, Store.getA_length_wrapCells]
    exact hv.2

/-! ### The `append` loop -/

theorem Sl.append_read [Inhabited α] (s : Sl) (xs : List (Route α))
    (st : Store α) (hv : s.Valid st) :
    (s.append xs st).1.read (s.append xs st).2 = s.read st ++ xs := by
  have hlen : (List.take s.len (st.getA s.arr) ++ xs).length
      = s.len + xs.length := by
    rw [List.length_append, List.length_take]
    have := hv.2
    rw [Sl.cap] at this
    omega
  rw [Sl.append]
  by_cases hfit : s.len + xs.length ≤ s.cap st
  · simp only [hfit, if_true]
    rw [Sl.read, Store.getA_set,
      if_pos (show s.arr = s.arr ∧ s.arr < List.length st from ⟨rfl, hv.1⟩),
      List.take_left' hlen, Sl.read]
  · simp only [hfit, if_false]
    rw [Sl.read, Store.getA_append_self, List.take_left' hlen, Sl.read]

theorem Sl.append_valid [Inhabited α] (s : Sl) (xs : List (Route α))
    (st : Store α) (hv : s.Valid st) :
    (s.append xs st).1.Valid (s.append xs st).2 := by
  have hcap := hv.2
  rw [Sl.cap] at hcap
  rw [Sl.append]
  by_cases hfit : s.len + xs.length ≤ s.cap st
  · simp only [hfit, if_true]
    rw [Sl.cap] at hfit
    refine ⟨by simpa using hv.1, ?_⟩
    rw [Sl.cap, Store.getA_set,
      if_pos (show s.arr = s.arr ∧ s.arr < List.length st from ⟨rfl, hv.1⟩)]
    simp only [List.length_append, List.length_take, List.length_drop]
    omega
  · simp only [hfit, if_false]
    refine ⟨by simp, ?_⟩
    rw [Sl.cap, Store.getA_append_self]
    simp only [List.length_append, List.length_take,
      List.length_replicate]
    omega

theorem Sl.append_arr [Inhabited α] (s : Sl) (xs : List (Route α))
    (st : Store α) :
    (s.append xs st).1.arr = s.arr ∨ (s.append xs st).1.arr = st.length := by
  rw [Sl.append]
  by_cases hfit : s.len + xs.length ≤ s.cap st
  · simp [hfit]
  · simp [hfit]

theorem Sl.append_len [Inhabited α] (s : Sl) (xs : List (Route α))
    (st : Store α) : (s.append xs st).1.len = s.len + xs.length := by
  rw [Sl.append]
  by_cases hfit : s.len + xs.length ≤ s.cap st
  · simp [hfit]
  · simp [hfit]

theorem Sl.append_length_mono [Inhabited α] (s : Sl) (xs : List (Route α))
    (st : Store α) : st.length ≤ (s.append xs st).2.length := by
  rw [Sl.append]
  by_cases hfit : s.len + xs.length ≤ s.cap st
  · simp [hfit]
  · simp [hfit]

theorem Sl.append_frame [Inhabited α] (s : Sl) (xs : List (Route α))
    (st : Store α) (k : Nat) (hk : k < st.length) (hne : k ≠ s.arr) :
    (s.append xs st).2.getA k = st.getA k := by
  rw [Sl.append]
  by_cases hfit : s.len + xs.length ≤ s.cap st
  · simp only [hfit, if_true]
    rw [Store.getA_set, if_neg (fun hc => hne hc.1.symm)]
  · simp only [hfit, if_false]
    exact Store.getA_append_lt st _ k hk

/-! ### Frame lemmas over store-level groups -/

theorem arrsOf_cons (s : Sl) (l : List Sl) :
    arrsOf (s :: l) = s.arr :: arrsOf l := rfl

theorem arrsOf_append (l1 l2 : List Sl) :
    arrsOf (l1 ++ l2) = arrsOf l1 ++ arrsOf l2 := List.map_append _ l1 l2

theorem mem_arrsOf {x : Sl} {l : List Sl} (h : x ∈ l) :
    x.arr ∈ arrsOf l := List.mem_map_of_mem _ h

theorem slicesAll_cons (g : GroupM α) (gs : List (GroupM α)) :
    GroupM.slicesAll (g :: gs) = g.slices ++ GroupM.slicesAll gs := by
  simp [GroupM.slicesAll]

theorem slices_mk (gs : List (GroupM α)) (rs : Sl) (ws : List (Mware α)) :
    (GroupM.mk gs rs ws).slices = rs :: GroupM.slicesAll gs := by
  simp [GroupM.slices]

mutual

theorem GroupM.readM_frame (g : GroupM α) (st st' : Store α)
    (h : ∀ s ∈ g.slices, st'.getA s.arr = st.getA s.arr) :
    g.read st' = g.read st := by
  match g with
  | .mk gs rs ws =>
      have h1 : st'.getA rs.arr = st.getA rs.arr :=
        h rs (by rw [slices_mk]; exact List.mem_cons_self _ _)
      have h2 : ∀ s ∈ GroupM.slicesAll gs,
          st'.getA s.arr = st.getA s.arr := fun s hs =>
        h s (by rw [slices_mk]; exact List.mem_cons_of_mem _ hs)
      simp only [GroupM.read]
      rw [GroupM.readAll_frame gs st st' h2, Sl.read_frame rs st st' h1]

theorem GroupM.readAll_frame (gs : List (GroupM α)) (st st' : Store α)
    (h : ∀ s ∈ GroupM.slicesAll gs, st'.getA s.arr = st.getA s.arr) :
    GroupM.readAll gs st' = GroupM.readAll gs st := by
  match gs with
  | [] => simp only [GroupM.readAll]
  | g :: gs =>
      have h1 : ∀ s ∈ g.slices, st'.getA s.arr = st.getA s.arr :=
        fun s hs => h s (by rw [slicesAll_cons]; exact List.mem_append_left _ hs)
      have h2 : ∀ s ∈ GroupM.slicesAll gs,
          st'.getA s.arr = st.getA s.arr := fun s hs =>
        h s (by rw [slicesAll_cons]; exact List.mem_append_right _ hs)
      simp only [GroupM.readAll]
      rw [GroupM.readM_frame g st st' h1, GroupM.readAll_frame gs st st' h2]

end

/-! ### The main refinement: the store-level composition computes the
value-level composition of the denoted group, and only touches the
backing arrays reachable from the group (plus fresh ones).  The
no-aliasing hypothesis (`Nodup` on the reachable array ids) is essential:
aliased sub-structures would observe each other's in-place writes. -/

mutual

theorem GroupM.compose_spec [Inhabited α] (g : GroupM α) (st : Store α)
    (hv : ValidAll g.slices st) (hd : (arrsOf g.slices).Nodup) :
    (g.compose st).1 = (g.read st).compose
    ∧ st.length ≤ (g.compose st).2.length
    ∧ (∀ k, k < st.length → k ∉ arrsOf g.slices →
        (g.compose st).2.getA k = st.getA k) := by
  match g with
  | .mk gs rs ws =>
      have hvs : rs.Valid st :=
        hv rs (by rw [slices_mk]; exact List.mem_cons_self _ _)
      have hva : ValidAll (GroupM.slicesAll gs) st := fun s hs =>
        hv s (by rw [slices_mk]; exact List.mem_cons_of_mem _ hs)
      have hdc : (rs.arr :: arrsOf (GroupM.slicesAll gs)).Nodup := by
        rw [slices_mk, arrsOf_cons] at hd
        exact hd
      obtain ⟨hread, hvalid, harr, hlen, hframe⟩ :=
        GroupM.composeInto_spec gs rs st hvs hva hdc
      simp only [GroupM.compose]
      refine ⟨?_, ?_, ?_⟩
      · rw [Sl.read_wrapCells, hread]
        simp only [GroupM.read, Group.compose, List.map_append]
      · rw [Store.length_wrapCells]
        exact hlen
      · intro k hk hkmem
        rw [slices_mk, arrsOf_cons] at hkmem
        have hk1 : k ≠ rs.arr := fun hc => hkmem (hc ▸ List.mem_cons_self _ _)
        have hk2 : k ∉ arrsOf (GroupM.slicesAll gs) :=
          fun hc => hkmem (List.mem_cons_of_mem _ hc)
        have hne : (GroupM.composeInto gs rs st).1.arr ≠ k := by
          rcases harr with h1 | h1
          · rw [h1]
            exact fun hc => hk1 hc.symm
          · omega
        rw [Store.getA_wrapCells_ne _ _ _ hne]
        exact hframe k hk hk1 hk2

theorem GroupM.composeInto_spec [Inhabited α] (gs : List (GroupM α))
    (s : Sl) (st : Store α) (hvs : s.Valid st)
    (hva : ValidAll (GroupM.slicesAll gs) st)
    (hd : (s.arr :: arrsOf (GroupM.slicesAll gs)).Nodup) :
    (GroupM.composeInto gs s st).1.read (GroupM.composeInto gs s st).2
        = s.read st ++ Group.composeAll (GroupM.readAll gs st)
    ∧ (GroupM.composeInto gs s st).1.Valid (GroupM.composeInto gs s st).2
    ∧ ((GroupM.composeInto gs s st).1.arr = s.arr
        ∨ st.length ≤ (GroupM.composeInto gs s st).1.arr)
    ∧ st.length ≤ (GroupM.composeInto gs s st).2.length
    ∧ (∀ k, k < st.length → k ≠ s.arr →
        k ∉ arrsOf (GroupM.slicesAll gs) →
        (GroupM.composeInto gs s st).2.getA k = st.getA k) := by
  match gs with
  | [] =>
      refine ⟨?_, ?_, ?_, ?_, ?_⟩
      · simp [GroupM.composeInto, GroupM.readAll, Group.composeAll]
      · simpa [GroupM.composeInto] using hvs
      · left
        simp [GroupM.composeInto]
      · simp [GroupM.composeInto]
      · intro k _ _ _
        simp [GroupM.composeInto]
  | g :: gs' =>
      -- split the hypotheses along `slicesAll (g :: gs')`
      rw [slicesAll_cons] at hva hd
      rw [arrsOf_append] at hd
      have hvg : ValidAll g.slices st := fun x hx =>
        hva x (List.mem_append_left _ hx)
      have hvgs : ValidAll (GroupM.slicesAll gs') st := fun x hx =>
        hva x (List.mem_append_right _ hx)
      have hd' := List.nodup_cons.mp hd
      have hd2 := List.nodup_append.mp hd'.2
      have hd_g : (arrsOf g.slices).Nodup := hd2.1
      have hd_gs : (arrsOf (GroupM.slicesAll gs')).Nodup := hd2.2.1
      have hdisj : ∀ a ∈ arrsOf g.slices,
          a ∉ arrsOf (GroupM.slicesAll gs') := hd2.2.2
      have hs_notin_g : s.arr ∉ arrsOf g.slices := fun hc =>
        hd'.1 (List.mem_append_left _ hc)
      have hs_notin_gs : s.arr ∉ arrsOf (GroupM.slicesAll gs') := fun hc =>
        hd'.1 (List.mem_append_right _ hc)
      have harrs_lt_g : ∀ x ∈ g.slices, x.arr < st.length :=
        fun x hx => (hvg x hx).1
      have harrs_lt : ∀ x ∈ GroupM.slicesAll gs', x.arr < st.length :=
        fun x hx => (hvgs x hx).1
      -- step 1: q := g.compose st
      obtain ⟨hq1, hq2, hq3⟩ := GroupM.compose_spec g st hvg hd_g
      have hsp : (g.compose st).2.getA s.arr = st.getA s.arr :=
        hq3 s.arr hvs.1 hs_notin_g
      have hsv : s.Valid (g.compose st).2 :=
        Sl.valid_frame s st _ hsp hq2 hvs
      have hgsp : ∀ x ∈ GroupM.slicesAll gs',
          (g.compose st).2.getA x.arr = st.getA x.arr := fun x hx =>
        hq3 x.arr (harrs_lt x hx)
          (fun hc => hdisj x.arr hc (mem_arrsOf hx))
      -- step 2: p := s.append q.1 q.2
      have hp_read := Sl.append_read s (g.compose st).1 (g.compose st).2 hsv
      have hp_valid := Sl.append_valid s (g.compose st).1 (g.compose st).2 hsv
      have hp_arr := Sl.append_arr s (g.compose st).1 (g.compose st).2
      have hp_mono := Sl.append_length_mono s (g.compose st).1 (g.compose st).2
      have hp_frame := Sl.append_frame s (g.compose st).1 (g.compose st).2
      -- arrays of gs' preserved from st to the appended store
      have hgsp2 : ∀ x ∈ GroupM.slicesAll gs',
          (s.append (g.compose st).1 (g.compose st).2).2.getA x.arr
            = st.getA x.arr := by
        intro x hx
        rw [hp_frame x.arr (lt_of_lt_of_le (harrs_lt x hx) hq2)
          (fun hc => hs_notin_gs (hc ▸ mem_arrsOf hx))]
        exact hgsp x hx
      -- step 3: the recursive call
      have hvs2 := hp_valid
      have hva2 : ValidAll (GroupM.slicesAll gs')
          (s.append (g.compose st).1 (g.compose st).2).2 :=
        ValidAll_frame _ st _ (le_trans hq2 hp_mono) hgsp2 hvgs
      have hd3 : ((s.append (g.compose st).1 (g.compose st).2).1.arr
          :: arrsOf (GroupM.slicesAll gs')).Nodup := by
        rw [List.nodup_cons]
        refine ⟨?_, hd_gs⟩
        rcases hp_arr with h1 | h1
        · rw [h1]
          exact hs_notin_gs
        · rw [h1]
          intro hc
          obtain ⟨x, hx, hxa⟩ := List.mem_map.mp hc
          have := harrs_lt x hx
          omega
      obtain ⟨hr1, hr2, hr3, hr4, hr5⟩ :=
        GroupM.composeInto_spec gs'
          (s.append (g.compose st).1 (g.compose st).2).1
          (s.append (g.compose st).1 (g.compose st).2).2 hvs2 hva2 hd3
      have hreadAll : GroupM.readAll gs'
            (s.append (g.compose st).1 (g.compose st).2).2
          = GroupM.readAll gs' st := by
        apply GroupM.readAll_frame
        intro x hx
        have hx2 : x.arr < (g.compose st).2.length :=
          lt_of_lt_of_le ((hvgs x hx).1) hq2
        rw [hp_frame x.arr hx2
          (fun hc => hs_notin_gs (hc ▸ mem_arrsOf hx))]
        exact hgsp x hx
      -- assemble
      simp only [GroupM.composeInto]
      refine ⟨?_, hr2, ?_, ?_, ?_⟩
      · rw [hr1, hreadAll, hp_read, Sl.read_frame s st (g.compose st).2 hsp,
          hq1]
        simp only [GroupM.readAll, Group.composeAll, List.append_assoc]
      · rcases hr3 with h1 | h1
        · rw [h1]
          rcases hp_arr with h2 | h2
          · rw [h2]
            exact Or.inl rfl
          · rw [h2]
            exact Or.inr hq2
        · exact Or.inr (le_trans (le_trans hq2 hp_mono) h1)
      · exact le_trans hq2 (le_trans hp_mono hr4)
      · intro k hk hks hkmem
        rw [slicesAll_cons, arrsOf_append, List.mem_append] at hkmem
        push_neg at hkmem
        have hkg : k ∉ arrsOf g.slices := hkmem.1
        have hkgs : k ∉ arrsOf (GroupM.slicesAll gs') := hkmem.2
        have hne_p : k ≠ (s.append (g.compose st).1 (g.compose st).2).1.arr := by
          rcases hp_arr with h1 | h1
          · rw [h1]
            exact hks
          · rw [h1]
            omega
        rw [hr5 k (lt_of_lt_of_le hk (le_trans hq2 hp_mono)) hne_p hkgs,
          hp_frame k (lt_of_lt_of_le hk hq2) hks,
          hq3 k hk hkg]

end

/-! ### The registration loop of `Router.Compose` -/

theorem Store.registerCells_spec [Inhabited α] (st : Store α) (i : Nat)
    (ws : List (Mware α)) (n : Nat) (hn : n ≤ (st.getA i).length) :
    (st.registerCells i ws n).2 = st.wrapCells i ws n
    ∧ (st.registerCells i ws n).1
        = (Sl.read ⟨i, n⟩ st).map
            (fun r => (r.pattern, applyAll r.fn ws)) := by
  induction n with
  | zero =>
      refine ⟨rfl, ?_⟩
      simp [Store.registerCells, Sl.read]
  | succ n ih =>
      obtain ⟨ih1, ih2⟩ := ih (by omega)
      have hcell : ((st.wrapCells i ws n).getA i)[n]?
          = ((st.getA i)[n]?) := by
        rw [Store.getElem?_wrapCells]
        simp
      obtain ⟨e, helem⟩ : ∃ e, (st.getA i)[n]? = some e :=
        ⟨_, List.getElem?_eq_getElem (by omega)⟩
      refine ⟨?_, ?_⟩
      · show ((st.registerCells i ws n).2.wrapCell i n ws)
          = (st.wrapCells i ws n).wrapCell i n ws
        rw [ih1]
      · show (st.registerCells i ws n).1
            ++ [((((st.registerCells i ws n).2.wrapCell i n ws).getCell i n).pattern,
                 (((st.registerCells i ws n).2.wrapCell i n ws).getCell i n).fn)]
          = (Sl.read ⟨i, n + 1⟩ st).map (fun r => (r.pattern, applyAll r.fn ws))
        rw [ih1, ih2]
        have hc2 : (((st.wrapCells i ws n).wrapCell i n ws).getA i)[n]?
            = some (wrapW ws e) := by
          rw [Store.getElem?_wrapCell_self, hcell, helem]
          rfl
        rw [Store.getCell_eq, hc2]
        rw [Sl.read, Sl.read, List.take_succ, helem]
        simp only [wrapW, Option.getD_some, Option.toList_some,
          List.map_append, List.map_cons, List.map_nil]

/-- `Router.Compose`, store level, computes exactly the value-level
registration list of the denoted router. -/
theorem RouterM.Compose_spec [Inhabited α] (r : RouterM α) (st : Store α)
    (hv : ValidAll r.slices st) (hd : (arrsOf r.slices).Nodup) :
    (r.Compose st).1 = composePairs (r.read st) := by
  have hvs : r.routes.Valid st :=
    hv r.routes (by rw [RouterM.slices]; exact List.mem_cons_self _ _)
  have hva : ValidAll (GroupM.slicesAll r.groups) st := fun s hs =>
    hv s (by rw [RouterM.slices]; exact List.mem_cons_of_mem _ hs)
  have hdc : (r.routes.arr :: arrsOf (GroupM.slicesAll r.groups)).Nodup := by
    rw [RouterM.slices, arrsOf_cons] at hd
    exact hd
  obtain ⟨hread, hvalid, harr, hlen, hframe⟩ :=
    GroupM.composeInto_spec r.groups r.routes st hvs hva hdc
  have hn : (GroupM.composeInto r.groups r.routes st).1.len
      ≤ ((GroupM.composeInto r.groups r.routes st).2.getA
          (GroupM.composeInto r.groups r.routes st).1.arr).length := by
    have := hvalid.2
    rw [Sl.cap] at this
    exact this
  obtain ⟨hst, hlist⟩ := Store.registerCells_spec
    (GroupM.composeInto r.groups r.routes st).2
    (GroupM.composeInto r.groups r.routes st).1.arr r.wrap
    (GroupM.composeInto r.groups r.routes st).1.len hn
  have heta : (⟨(GroupM.composeInto r.groups r.routes st).1.arr,
      (GroupM.composeInto r.groups r.routes st).1.len⟩ : Sl)
      = (GroupM.composeInto r.groups r.routes st).1 := rfl
  rw [RouterM.Compose, hlist, heta, hread]
  simp only [RouterM.read, composePairs]

end srv

/-! ### Claim theorems: pure-model claims -/

namespace srv

/-- Claim C1: for every pattern, recognized handler input and middleware
sequence, `Handle` returns the route with that pattern whose handler is
the adapted input wrapped by the middleware in order with the last
middleware outermost (first conjunct: peeling the last middleware; second:
the closed form), and on trace handlers the composed handler runs the
last-applied middleware's pre-logic first, then the earlier ones, then the
base handler, then the post-logic in reverse order (third conjunct). -/
theorem C1_handle_wrap_order :
    (∀ (α : Type) (p : String) (h : HIn α) (f : α) (mw : List (Mware α))
        (m : Mware α), h.adapt = some f →
        Handle p h (mw ++ [m]) = .ok ⟨p, m (applyAll f mw)⟩)
    ∧ (∀ (α : Type) (p : String) (h : HIn α) (f : α) (mw : List (Mware α)),
        h.adapt = some f → Handle p h mw = .ok ⟨p, applyAll f mw⟩)
    ∧ (∀ (tr : Trace) (ids : List Nat),
        applyAll tr (ids.map mwTrace)
          = (ids.reverse.map (fun i => (i, false))) ++ tr
            ++ ids.map (fun i => (i, true))) := by
  refine ⟨?_, ?_, fun tr ids => applyAll_trace tr ids⟩
  · intro α p h f mw m hf
    cases h <;> simp_all [HIn.adapt, Handle, Route.Wrap_eq, applyAll_concat]
  · intro α p h f mw hf
    cases h <;> simp_all [HIn.adapt, Handle, Route.Wrap_eq]

/-- Witness for C1 at a concrete input. -/
theorem C1_handle_wrap_order_witness :
    Handle "/a" (HIn.handlerFunc (H.base 0)) ([mwH 1] ++ [mwH 2])
      = .ok ⟨"/a", mwH 2 (applyAll (H.base 0) [mwH 1])⟩ :=
  C1_handle_wrap_order.1 H "/a" (HIn.handlerFunc (H.base 0)) (H.base 0)
    [mwH 1] (mwH 2) rfl

/-- Claim C2: composing a group yields the direct routes followed by each
sub-group's composition in declaration order, every route wrapped by the
group's middleware (in declaration order, so the group's wrapping sits
outside whatever the routes already carry), and no pattern is altered. -/
theorem C2_group_compose :
    (∀ (α : Type) (gs : List (Group α)) (rs : List (Route α))
        (ws : List (Mware α)),
        Group.compose (.mk gs rs ws)
          = rs.map (wrapW ws)
            ++ (gs.map (fun s => s.compose.map (wrapW ws))).flatten)
    ∧ (∀ (α : Type) (gs : List (Group α)) (rs : List (Route α))
        (ws : List (Mware α)),
        (Group.compose (.mk gs rs ws)).map Route.pattern
          = (rs ++ (gs.map Group.compose).flatten).map Route.pattern) := by
  constructor
  · intro α gs rs ws
    simp [Group.compose, Group.composeAll_eq_join, List.map_flatten,
      List.map_map, Function.comp_def]
  · intro α gs rs ws
    simp [Group.compose, Group.composeAll_eq_join, List.map_map,
      Function.comp_def, wrapW]

/-- Claim C8: wrapping a route (or a routes collection) first with one
middleware and then with another produces the same wrap structure as
wrapping once with both, in order. -/
theorem C8_wrap_associative :
    (∀ (α : Type) (r : Route α) (m1 m2 : Mware α),
        (r.Wrap [m1]).Wrap [m2] = r.Wrap [m1, m2])
    ∧ (∀ (α : Type) (rs : Routes α) (m1 m2 : Mware α),
        Routes.Wrap (Routes.Wrap rs [m1]) [m2] = Routes.Wrap rs [m1, m2]) := by
  constructor
  · intro α r m1 m2
    rfl
  · intro α rs m1 m2
    simp only [Routes.Wrap, List.map_map]
    rfl

/-- Claim C10: the empty middleware sequence is an identity: `Handle` with
no middleware returns exactly the adapted handler, `Route.Wrap` with no
arguments returns the route unchanged, and `Routes.Wrap` with no
arguments leaves every route unchanged. -/
theorem C10_empty_mw_identity :
    (∀ (α : Type) (p : String) (h : HIn α) (f : α), h.adapt = some f →
        Handle p h [] = .ok ⟨p, f⟩)
    ∧ (∀ (α : Type) (r : Route α), r.Wrap [] = r)
    ∧ (∀ (α : Type) (rs : Routes α), Routes.Wrap rs [] = rs) := by
  refine ⟨?_, fun α r => rfl, fun α rs => ?_⟩
  · intro α p h f hf
    cases h <;> simp_all [HIn.adapt, Handle, Route.Wrap]
  · simp [Routes.Wrap, Route.Wrap]

/-- Witness for C10 at a concrete input. -/
theorem C10_empty_mw_identity_witness :
    Handle "/a" (HIn.plainFunc (H.base 3)) [] = .ok ⟨"/a", H.base 3⟩ :=
  C10_empty_mw_identity.1 H "/a" (HIn.plainFunc (H.base 3)) (H.base 3) rfl

/-- Claim C6: the redirect handler rewrites exactly the host
`"localhost"+HTTP` to `"localhost"+HTTPS`, leaves any other host
unmodified, targets `https://host+path` with `?`+rawQuery appended exactly
when the raw query is non-empty, and responds 307; including the spec's
three concrete examples. -/
theorem C6_redirect :
    (∀ (HTTP HTTPS : String) (req : Request),
        Redirect HTTP HTTPS req
          = ⟨307,
             "https://"
               ++ (if req.host = "localhost" ++ HTTP
                   then "localhost" ++ HTTPS else req.host)
               ++ req.path
               ++ (if req.rawQuery = "" then "" else "?" ++ req.rawQuery)⟩)
    ∧ Redirect ":8080" ":8443" ⟨"localhost:8080", "/foo", ""⟩
        = ⟨307, "https://localhost:8443/foo"⟩
    ∧ Redirect ":8080" ":8443" ⟨"localhost:8080", "/foo", "a=1"⟩
        = ⟨307, "https://localhost:8443/foo?a=1"⟩
    ∧ Redirect ":8080" ":8443" ⟨"example.com:9999", "/foo", ""⟩
        = ⟨307, "https://example.com:9999/foo"⟩ := by
  refine ⟨?_, by decide, by decide, by decide⟩
  intro HTTP HTTPS req
  by_cases hq : req.rawQuery = ""
  · simp [Redirect, hq]
  · have hlen : 0 < req.rawQuery.length := by
      cases hs : req.rawQuery with
      | mk data =>
        cases data with
        | nil => exact absurd hs hq
        | cons c cs => simp [String.length]
    simp [Redirect, hq, hlen, String.append_assoc]

/-- The `Group.Add` loop runs through a prefix of recognized arguments and
continues on the rest from some accumulated group. -/
theorem Group.addLoop_progress (pre : List (AIn α)) :
    ∀ (g : Group α) (rest : List (AIn α)),
      (∀ x ∈ pre, x.recognized = true) →
      ∃ g2, Group.Add g (pre ++ rest) = Group.Add g2 rest := by
  induction pre with
  | nil => exact fun g rest _ => ⟨g, rfl⟩
  | cons x pre ih =>
      intro g rest hrec
      have hx := hrec x (by simp)
      have hpre : ∀ y ∈ pre, AIn.recognized y = true :=
        fun y hy => hrec y (by simp [hy])
      cases x with
      | group t =>
          simpa only [List.cons_append, Group.Add] using ih _ rest hpre
      | groups ts =>
          simpa only [List.cons_append, Group.Add] using ih _ rest hpre
      | route t =>
          simpa only [List.cons_append, Group.Add] using ih _ rest hpre
      | routes ts =>
          simpa only [List.cons_append, Group.Add] using ih _ rest hpre
      | hfunc f => simp [AIn.recognized] at hx
      | str s => simp [AIn.recognized] at hx
      | other ty val => simp [AIn.recognized] at hx

/-- The `Router.Add` loop runs through a prefix of recognized arguments
and continues on the rest from some accumulated router. -/
theorem Router.addLoop_skip (pre : List (AIn α)) :
    ∀ (r : Router α) (rest : List (AIn α)),
      (∀ x ∈ pre, x.recognized = true) →
      ∃ r2, Router.Add r (pre ++ rest) = Router.Add r2 rest := by
  induction pre with
  | nil => exact fun r rest _ => ⟨r, rfl⟩
  | cons x pre ih =>
      intro r rest hrec
      have hx := hrec x (by simp)
      have hpre : ∀ y ∈ pre, AIn.recognized y = true :=
        fun y hy => hrec y (by simp [hy])
      cases x with
      | group t =>
          simpa only [List.cons_append, Router.Add] using ih _ rest hpre
      | groups ts =>
          simpa only [List.cons_append, Router.Add] using ih _ rest hpre
      | route t =>
          simpa only [List.cons_append, Router.Add] using ih _ rest hpre
      | routes ts =>
          simpa only [List.cons_append, Router.Add] using ih _ rest hpre
      | hfunc f => simp [AIn.recognized] at hx
      | str s => simp [AIn.recognized] at hx
      | other ty val => simp [AIn.recognized] at hx

/-- Claim C7: all configuration errors are fatal with the source's
diagnostics, and recognized inputs never trigger them: `Handle` fails
exactly on an unrecognized variant, naming the received type; `Group.Add`
and `Router.Add` fail at the first argument that is not a
Group/[]Group/Route/[]Route — on strings with the diagnostic directing to
`Handle`, on `http.HandlerFunc` values, and on unknown types (naming
them) — and succeed on any list of recognized arguments. -/
theorem C7_fatal_configuration :
    (∀ (α : Type) (p ty : String) (mw : List (Mware α)),
        Handle p (HIn.other ty) mw
          = .error ("require either http.Handler or http.HandlerFunc got: "
              ++ ty))
    ∧ (∀ (α : Type) (p : String) (h : HIn α) (f : α) (mw : List (Mware α)),
        h.adapt = some f → ∃ r, Handle p h mw = .ok r)
    ∧ (∀ (α : Type) (g : Group α) (pre : List (AIn α)) (s : String)
        (rest : List (AIn α)), (∀ x ∈ pre, x.recognized = true) →
        Group.Add g (pre ++ .str s :: rest)
          = .error "use srv.Handle() to add an endpoint")
    ∧ (∀ (α : Type) (g : Group α) (pre : List (AIn α)) (f : α)
        (rest : List (AIn α)), (∀ x ∈ pre, x.recognized = true) →
        Group.Add g (pre ++ .hfunc f :: rest)
          = .error "unknown type: http.HandlerFunc")
    ∧ (∀ (α : Type) (g : Group α) (pre : List (AIn α)) (ty val : String)
        (rest : List (AIn α)), (∀ x ∈ pre, x.recognized = true) →
        Group.Add g (pre ++ .other ty val :: rest)
          = .error ("unknown type: " ++ ty))
    ∧ (∀ (α : Type) (r : Router α) (pre : List (AIn α)) (s : String)
        (rest : List (AIn α)), (∀ x ∈ pre, x.recognized = true) →
        Router.Add r (pre ++ .str s :: rest)
          = .error "use srv.Handle() to add endpoint")
    ∧ (∀ (α : Type) (r : Router α) (pre : List (AIn α)) (f : α)
        (rest : List (AIn α)), (∀ x ∈ pre, x.recognized = true) →
        Router.Add r (pre ++ .hfunc f :: rest)
          = .error "use srv.Handle() to add endpoint")
    ∧ (∀ (α : Type) (r : Router α) (pre : List (AIn α)) (ty val : String)
        (rest : List (AIn α)), (∀ x ∈ pre, x.recognized = true) →
        Router.Add r (pre ++ .other ty val :: rest)
          = .error ("unknown type: " ++ ty ++ " " ++ val))
    ∧ (∀ (α : Type) (g : Group α) (v : List (AIn α)),
        (∀ x ∈ v, x.recognized = true) → ∃ g2, Group.Add g v = .ok g2)
    ∧ (∀ (α : Type) (r : Router α) (v : List (AIn α)),
        (∀ x ∈ v, x.recognized = true) → ∃ r2, Router.Add r v = .ok r2) := by
  refine ⟨fun α p ty mw => rfl, ?_, ?_, ?_, ?_, ?_, ?_, ?_, ?_, ?_⟩
  · intro α p h f mw hf
    cases h <;> simp_all [HIn.adapt, Handle]
  · intro α g pre s rest hrec
    obtain ⟨g2, hg⟩ := Group.addLoop_progress pre g (.str s :: rest) hrec
    rw [hg]
    rfl
  · intro α g pre f rest hrec
    obtain ⟨g2, hg⟩ := Group.addLoop_progress pre g (.hfunc f :: rest) hrec
    rw [hg]
    rfl
  · intro α g pre ty val rest hrec
    obtain ⟨g2, hg⟩ := Group.addLoop_progress pre g (.other ty val :: rest) hrec
    rw [hg]
    rfl
  · intro α r pre s rest hrec
    obtain ⟨r2, hr⟩ := Router.addLoop_skip pre r (.str s :: rest) hrec
    rw [hr]
    rfl
  · intro α r pre f rest hrec
    obtain ⟨r2, hr⟩ := Router.addLoop_skip pre r (.hfunc f :: rest) hrec
    rw [hr]
    rfl
  · intro α r pre ty val rest hrec
    obtain ⟨r2, hr⟩ := Router.addLoop_skip pre r (.other ty val :: rest) hrec
    rw [hr]
    rfl
  · intro α g v hv
    induction v generalizing g with
    | nil => exact ⟨g, rfl⟩
    | cons x rest ih =>
        have hx := hv x (by simp)
        have hrest : ∀ y ∈ rest, AIn.recognized y = true :=
          fun y hy => hv y (by simp [hy])
        cases x <;> simp_all [AIn.recognized, Group.Add]
  · intro α r v hv
    induction v generalizing r with
    | nil => exact ⟨r, rfl⟩
    | cons x rest ih =>
        have hx := hv x (by simp)
        have hrest : ∀ y ∈ rest, AIn.recognized y = true :=
          fun y hy => hv y (by simp [hy])
        cases x <;> simp_all [AIn.recognized, Router.Add]

/-- Witness for C7 at concrete inputs. -/
theorem C7_fatal_configuration_witness :
    (∃ r, Handle "/a" (HIn.handler (H.base 0)) [mwH 1] = .ok r)
    ∧ Group.Add (Group.mk (α := H) [] [] [])
        ([AIn.route ⟨"/a", H.base 0⟩] ++ AIn.str "/b" :: [])
        = .error "use srv.Handle() to add an endpoint"
    ∧ (∃ g2, Group.Add (Group.mk (α := H) [] [] [])
        [AIn.route ⟨"/a", H.base 0⟩] = .ok g2) :=
  ⟨C7_fatal_configuration.2.1 H "/a" (HIn.handler (H.base 0)) (H.base 0)
      [mwH 1] rfl,
   C7_fatal_configuration.2.2.1 H (Group.mk [] [] [])
      [AIn.route ⟨"/a", H.base 0⟩] "/b" []
      (by intro x hx; simp_all [AIn.recognized]),
   C7_fatal_configuration.2.2.2.2.2.2.2.2.1 H (Group.mk [] [] [])
      [AIn.route ⟨"/a", H.base 0⟩] (by intro x hx; simp_all [AIn.recognized])⟩

/-- The registration fold of `Router.Compose` is the mapped list. -/
theorem foldl_register (rts : List (Route α)) (ws : List (Mware α))
    (mux : List (String × α)) :
    rts.foldl (fun mux rt => mux ++ [(rt.pattern, applyAll rt.fn ws)]) mux
      = mux ++ rts.map (fun rt => (rt.pattern, applyAll rt.fn ws)) := by
  induction rts generalizing mux with
  | nil => simp
  | cons rt rts ih => simp [ih]

/-- Claim C3: when the `Add` merge succeeds, `Router.Compose` returns the
collaborator extended by one registration per route — the merged router's
direct routes first, then each group's composition in declaration order,
each handler wrapped by the router middleware in declaration order as the
outermost layer, patterns untouched, every pair registered unconditionally
in list order (duplicates included); and a failing merge is the only
failure. -/
theorem C3_router_compose :
    (∀ (α : Type) (r : Router α) (v : List (AIn α)) (r1 : Router α),
        Router.Add r v = .ok r1 →
        Router.Compose r v
          = .ok (r1.mux
              ++ ((r1.routes ++ (r1.groups.map Group.compose).flatten).map
                    (fun rt => (rt.pattern, applyAll rt.fn r1.wrap)))))
    ∧ (∀ (α : Type) (r : Router α) (v : List (AIn α)) (e : String),
        Router.Add r v = .error e → Router.Compose r v = .error e) := by
  constructor
  · intro α r v r1 hadd
    simp [Router.Compose, hadd, foldl_register, Group.composeAll_eq_join,
      Except.map]
  · intro α r v e hadd
    simp [Router.Compose, hadd, Except.map]

/-- Witness for C3 at a concrete input. -/
theorem C3_router_compose_witness :
    Router.Compose (NewRouter H) [AIn.route ⟨"/a", H.base 0⟩]
      = .ok ((NewRouter H).mux
          ++ ((([⟨"/a", H.base 0⟩] : List (Route H))
                ++ (([] : List (Group H)).map Group.compose).flatten).map
                (fun rt => (rt.pattern, applyAll rt.fn [])))) :=
  C3_router_compose.1 H (NewRouter H) [AIn.route ⟨"/a", H.base 0⟩]
    ⟨[], [], [⟨"/a", H.base 0⟩], []⟩ rfl

/-- Evaluation helper: composing a group with no sub-groups runs no
`append` and just wraps the cells of its routes slice in place. -/
theorem composeM_nil_eval [Inhabited α] (rs : Sl) (ws : List (Mware α))
    (st : Store α) :
    (GroupM.mk [] rs ws).compose st
      = (rs.read (st.wrapCells rs.arr ws rs.len),
         st.wrapCells rs.arr ws rs.len) := by
  simp [GroupM.compose, GroupM.composeInto]

/-- Claim C4 (amended): `compose()` never mutates the Group struct's own
fields, and with non-aliased backing arrays its return value is exactly
the value-level composition of the group's contents (first conjunct).
But `compose()` writes the wrapped handlers back into the backing array
of `g.routes` (for a group with no sub-groups nothing is appended, so the
write is always caller-visible): afterwards the caller observes the
wrapped handlers through `g.routes` (second conjunct), and calling
`compose()` on the same Group value a second time wraps the handlers
again, so the two calls' results are structurally equal only when the
middleware adds no wrapping (third conjunct). -/
theorem C4_compose_purity_and_mutation :
    ∀ (α : Type) [Inhabited α],
      (∀ (g : GroupM α) (st : Store α),
          ValidAll g.slices st → (arrsOf g.slices).Nodup →
          (g.compose st).1 = (g.read st).compose)
      ∧ (∀ (rs : Sl) (ws : List (Mware α)) (st : Store α),
          rs.read ((GroupM.mk [] rs ws).compose st).2
            = (rs.read st).map (wrapW ws))
      ∧ (∀ (rs : Sl) (ws : List (Mware α)) (st : Store α),
          ((GroupM.mk [] rs ws).compose
              ((GroupM.mk [] rs ws).compose st).2).1
            = ((rs.read st).map (wrapW ws)).map (wrapW ws)) := by
  intro α inst
  refine ⟨fun g st hv hd => (GroupM.compose_spec g st hv hd).1, ?_, ?_⟩
  · intro rs ws st
    rw [composeM_nil_eval]
    exact Sl.read_wrapCells rs ws st
  · intro rs ws st
    rw [composeM_nil_eval, composeM_nil_eval]
    dsimp only
    rw [Sl.read_wrapCells, Sl.read_wrapCells]

/-- Witness for C4 at a concrete input. -/
theorem C4_compose_purity_and_mutation_witness :
    ((GroupM.mk [] ⟨0, 1⟩ [mwH 1]).compose [[⟨"/a", H.base 0⟩]]).1
      = ((GroupM.mk [] ⟨0, 1⟩ [mwH 1]).read [[⟨"/a", H.base 0⟩]]).compose :=
  (C4_compose_purity_and_mutation H).1 (GroupM.mk [] ⟨0, 1⟩ [mwH 1])
    [[⟨"/a", H.base 0⟩]]
    (by
      intro s hs
      simp only [slices_mk, GroupM.slicesAll, List.mem_cons,
        List.not_mem_nil, or_false] at hs
      subst hs
      decide)
    (by
      simp only [slices_mk, GroupM.slicesAll]
      decide)

/-- Counterexample to C4 as stated: for the one-route group with one
middleware, composing mutates the handler stored in the caller-visible
backing array of `g.routes` (second conjunct), and composing the same
Group value a second time returns a double-wrapped, structurally
different route list (first conjunct). -/
theorem C4_counterexample :
    ¬ (((GroupM.mk [] ⟨0, 1⟩ [mwH 1]).compose [[⟨"/a", H.base 0⟩]]).1
        = ((GroupM.mk [] ⟨0, 1⟩ [mwH 1]).compose
            ((GroupM.mk [] ⟨0, 1⟩ [mwH 1]).compose [[⟨"/a", H.base 0⟩]]).2).1)
    ∧ ¬ (Sl.read ⟨0, 1⟩
          ((GroupM.mk [] ⟨0, 1⟩ [mwH 1]).compose [[⟨"/a", H.base 0⟩]]).2
        = Sl.read ⟨0, 1⟩ [[⟨"/a", H.base 0⟩]]) := by
  rw [composeM_nil_eval, composeM_nil_eval]
  exact ⟨by decide, by decide⟩

/-- Claim C5 (amended): `Route.Wrap` has value semantics — it returns a
new `Route` whose handler is the receiver's handler wrapped, the
receiver's fields being plain values that the call cannot change (first
conjunct).  `Routes.Wrap`, however, returns the very same slice header
and rewrites every route's handler in place in the shared backing array,
so the caller's original collection observes the updated handlers
(second conjunct). -/
theorem C5_wrap_value_semantics :
    ∀ (α : Type) [Inhabited α],
      (∀ (r : Route α) (mw : List (Mware α)),
          r.Wrap mw = ⟨r.pattern, applyAll r.fn mw⟩)
      ∧ (∀ (s : Sl) (mw : List (Mware α)) (st : Store α),
          (RoutesWrapM s mw st).1 = s
          ∧ s.read (RoutesWrapM s mw st).2 = (s.read st).map (wrapW mw)) := by
  intro α inst
  exact ⟨fun r mw => Route.Wrap_eq r mw,
    fun s mw st => ⟨rfl, Sl.read_wrapCells s mw st⟩⟩

/-- Witness for C5 at a concrete input. -/
theorem C5_wrap_value_semantics_witness :
    (RoutesWrapM ⟨0, 1⟩ [mwH 1] [[⟨"/a", H.base 0⟩]]).1 = ⟨0, 1⟩
    ∧ Sl.read ⟨0, 1⟩ (RoutesWrapM ⟨0, 1⟩ [mwH 1] [[⟨"/a", H.base 0⟩]]).2
        = (Sl.read ⟨0, 1⟩ [[⟨"/a", H.base 0⟩]]).map (wrapW [mwH 1]) :=
  (C5_wrap_value_semantics H).2 ⟨0, 1⟩ [mwH 1] [[⟨"/a", H.base 0⟩]]

/-- Counterexample to C5 as stated: after `Routes.Wrap` the original
collection, read through the caller's own slice, observes the wrapped
handler — old and new values share the backing array. -/
theorem C5_counterexample :
    ¬ (Sl.read ⟨0, 1⟩
          (RoutesWrapM ⟨0, 1⟩ [mwH 1] [[⟨"/a", H.base 0⟩]]).2
        = Sl.read ⟨0, 1⟩ [[⟨"/a", H.base 0⟩]]) := by
  decide

/-- Claim C9: router composition is deterministic — two routers denoting
structurally identical trees (over possibly different, well-formed and
non-aliased memory layouts) register structurally identical flat
route lists.  The well-formedness hypotheses say the trees are what the
configuration API builds: every slice valid, no two reachable slices
sharing a backing array. -/
theorem C9_compose_deterministic :
    ∀ (α : Type) [Inhabited α] (rv1 rv2 : RouterM α) (st1 st2 : Store α),
      ValidAll rv1.slices st1 → (arrsOf rv1.slices).Nodup →
      ValidAll rv2.slices st2 → (arrsOf rv2.slices).Nodup →
      rv1.read st1 = rv2.read st2 →
      (rv1.Compose st1).1 = (rv2.Compose st2).1 := by
  intro α inst rv1 rv2 st1 st2 hv1 hd1 hv2 hd2 hr
  rw [RouterM.Compose_spec rv1 st1 hv1 hd1,
    RouterM.Compose_spec rv2 st2 hv2 hd2, hr]

/-- Witness for C9: the same one-route tree laid out at two different
store locations composes to the same registration list. -/
theorem C9_compose_deterministic_witness :
    ((RouterM.mk [] ⟨0, 1⟩ []).Compose [[⟨"/a", H.base 0⟩]]).1
      = ((RouterM.mk [] ⟨1, 1⟩ []).Compose [[], [⟨"/a", H.base 0⟩]]).1 :=
  C9_compose_deterministic H (RouterM.mk [] ⟨0, 1⟩ [])
    (RouterM.mk [] ⟨1, 1⟩ []) [[⟨"/a", H.base 0⟩]] [[], [⟨"/a", H.base 0⟩]]
    (by
      intro s hs
      simp only [RouterM.slices, GroupM.slicesAll, List.mem_cons,
        List.not_mem_nil, or_false] at hs
      subst hs
      decide)
    (by
      simp only [RouterM.slices, GroupM.slicesAll]
      decide)
    (by
      intro s hs
      simp only [RouterM.slices, GroupM.slicesAll, List.mem_cons,
        List.not_mem_nil, or_false] at hs
      subst hs
      decide)
    (by
      simp only [RouterM.slices, GroupM.slicesAll]
      decide)
    (by
      have h : Sl.read ⟨0, 1⟩ [[⟨"/a", H.base 0⟩]]
          = Sl.read ⟨1, 1⟩ [[], [⟨"/a", H.base 0⟩]] := by decide
      simp [RouterM.read, GroupM.readAll, h])

end srv
